import Mathlib

set_option linter.unusedVariables false

/-!
Verification development for the TurboTransformers computational core:
the masked softmax kernel (fast_transformers/layers/kernels/softmax.cpp)
and the position-wise feed-forward orchestrator
(turbo_transformers/layers/positionwise_ffn.cpp).

Modelling conventions: float arithmetic is embedded into the exact
rationals. The C library exponential std::exp is not part of the
repository, so it is kept as an explicit function parameter E; the only
fact used about it is the nonnegativity of its values, which holds for
the float exponential (whose range is the nonnegative floats, with exact
zero produced on underflow). Flat row-major buffers are embedded as
functions from indices to rationals.
-/

namespace fast_transformers
namespace kernels


/-- The epsilon constant guarding the softmax denominator
(g_epsilon = 1e-6f in softmax.cpp). -/
def g_epsilon : ℚ := 1 / 1000000

/-- Value written by the first inner loop of SoftmaxMask at row i,
column j: the exponential of the scaled score plus the mask value of the
batch element that row i belongs to. -/
def expVal (E : ℚ → ℚ) (qk_buf attr_mask : ℕ → ℚ) (head_num seq_len : ℕ)
    (scaler : ℚ) (i j : ℕ) : ℚ :=
  E (qk_buf (i * seq_len + j) * scaler +
     attr_mask (i / (head_num * seq_len) * seq_len + j))

/-- The per-row accumulator sum of SoftmaxMask: sum of the exponentiated
values of row i. -/
def rowSum (E : ℚ → ℚ) (qk_buf attr_mask : ℕ → ℚ) (head_num seq_len : ℕ)
    (scaler : ℚ) (i : ℕ) : ℚ :=
  ∑ j ∈ Finset.range seq_len, expVal E qk_buf attr_mask head_num seq_len scaler i j

/-- The SoftmaxMask kernel as a function on the flat score buffer: each
of the M = batch * heads * seq rows of length seq is exponentiated with
scale and additive mask and then multiplied by the reciprocal of the
epsilon-guarded row sum; indices outside the buffer keep their value. -/
def SoftmaxMask (E : ℚ → ℚ) (qk_buf attr_mask : ℕ → ℚ)
    (batch_size head_num seq_len : ℕ) (scaler : ℚ) : ℕ → ℚ :=
  fun idx =>
    if idx < batch_size * head_num * seq_len * seq_len then
      expVal E qk_buf attr_mask head_num seq_len scaler (idx / seq_len) (idx % seq_len) *
        (1 / (rowSum E qk_buf attr_mask head_num seq_len scaler (idx / seq_len) + g_epsilon))
    else qk_buf idx

/-- State of the score buffer after the first inner loop of the body of
the parallel loop for row i: every element of row i is exponentiated in
place, all other elements are untouched. -/
def rowExpBuf (E : ℚ → ℚ) (attr_mask : ℕ → ℚ) (head_num seq_len : ℕ)
    (scaler : ℚ) (i : ℕ) (buf : ℕ → ℚ) : ℕ → ℚ :=
  fun idx =>
    if idx / seq_len = i then
      E (buf idx * scaler + attr_mask (i / (head_num * seq_len) * seq_len + idx % seq_len))
    else buf idx

/-- One iteration of the parallel loop of SoftmaxMask: exponentiate row
i in place, sum the exponentiated row, multiply the row by the
reciprocal of the epsilon-guarded sum. Elements outside row i are not
read or written. -/
def rowUpdate (E : ℚ → ℚ) (attr_mask : ℕ → ℚ) (head_num seq_len : ℕ)
    (scaler : ℚ) (i : ℕ) (buf : ℕ → ℚ) : ℕ → ℚ :=
  fun idx =>
    if idx / seq_len = i then
      rowExpBuf E attr_mask head_num seq_len scaler i buf idx *
        (1 / ((∑ j ∈ Finset.range seq_len,
            rowExpBuf E attr_mask head_num seq_len scaler i buf (i * seq_len + j)) + g_epsilon))
    else buf idx

/-- SoftmaxMask executed as a sequence of row updates in the order given
by the schedule list: one possible serialization of the parallel loop. -/
def SoftmaxMaskSeq (E : ℚ → ℚ) (qk_buf attr_mask : ℕ → ℚ)
    (batch_size head_num seq_len : ℕ) (scaler : ℚ) (order : List ℕ) : ℕ → ℚ :=
  order.foldl (fun buf i => rowUpdate E attr_mask head_num seq_len scaler i buf) qk_buf

end kernels
end fast_transformers

namespace turbo_transformers

/-- A tensor of the core tensor subsystem (external to this repository):
a shape together with a flat row-major rational buffer. -/
structure Tensor where
  shape : List ℕ
  data : ℕ → ℚ

namespace Tensor

/-- The size of dimension i, as returned by the shape accessor. -/
def dim (t : Tensor) (i : ℕ) : ℕ := t.shape.getD i 0

/-- Number of elements of the tensor. -/
def numel (t : Tensor) : ℕ := t.shape.prod

/-- The innermost (last) dimension of the tensor. -/
def lastDim (t : Tensor) : ℕ := t.shape.getLastD 1

/-- Modelled from the spec: the external tensor subsystem operation
Reshape (reshape and reallocate). The repository source only calls it;
its implementation is not under src. It sets the shape and provides a
fresh buffer whose contents are unspecified before being written; the
model takes them to be zero. -/
def Reshape (t : Tensor) (dims : List ℕ) : Tensor :=
  { shape := dims, data := fun _ => 0 }

end Tensor

namespace kernels

/-- Modelled from the spec: the external buffer copy kernel
core::Copy (not under src). Copies every element of src into dst. -/
def Copy (src dst : Tensor) : Tensor :=
  { shape := dst.shape,
    data := fun idx => if idx < src.numel then src.data idx else dst.data idx }

/-- Modelled from the spec: the external GEMM kernel kernels::MatMul
(not under src), computing C = alpha * A * B + beta * C, where A is
viewed as a 2-D matrix whose rows are all leading dimensions and whose
columns are the innermost dimension (swapped when transA), and the 2-D
matrix B is read transposed when transB. The output keeps the shape of
C; elements of C outside the m x n result region are untouched. -/
def MatMul (A : Tensor) (transA : Bool) (B : Tensor) (transB : Bool)
    (alpha : ℚ) (C : Tensor) (beta : ℚ) : Tensor :=
  let m := if transA then A.lastDim else (A.shape.dropLast).prod
  let k := if transA then (A.shape.dropLast).prod else A.lastDim
  let n := if transB then B.dim 0 else B.dim 1
  let entryA : ℕ → ℕ → ℚ := fun i t =>
    if transA then A.data (t * A.lastDim + i) else A.data (i * A.lastDim + t)
  let entryB : ℕ → ℕ → ℚ := fun t j =>
    if transB then B.data (j * B.dim 1 + t) else B.data (t * B.dim 1 + j)
  { shape := C.shape,
    data := fun idx =>
      if idx < m * n then
        alpha * (∑ t ∈ Finset.range k, entryA (idx / n) t * entryB t (idx % n)) +
          beta * C.data idx
      else C.data idx }

/-- Modelled from the spec: the external fused bias plus rectified
linear activation kernel kernels::AddBiasAct with the Relu activation
kind (not under src). In place: every element gets the bias of its
innermost-dimension position added and is clamped at zero from below. -/
def AddBiasActRelu (bias : Tensor) (t : Tensor) : Tensor :=
  { shape := t.shape,
    data := fun idx =>
      if idx < t.numel then
        max 0 (t.data idx + bias.data (idx % t.lastDim))
      else t.data idx }

/-- Modelled from the spec: the external fused residual kernel
kernels::AddInputBias (not under src): output = input + (computed +
bias), the bias broadcast along the innermost dimension. -/
def AddInputBias (input computed bias : Tensor) (out : Tensor) : Tensor :=
  { shape := out.shape,
    data := fun idx =>
      if idx < computed.numel then
        input.data idx + computed.data idx + bias.data (idx % computed.lastDim)
      else out.data idx }

end kernels

namespace layers

/-- The long-lived parameters of the position-wise feed-forward layer,
as held by the PositionwiseFeedForward object. -/
structure PositionwiseFeedForward where
  dense_weight_1 : Tensor
  dense_bias_1 : Tensor
  dense_weight_2 : Tensor
  dense_bias_2 : Tensor
  layer_norm_weight : Tensor
  layer_norm_bias : Tensor

/-- Observable result of one call of the feed-forward operator: whether
validation passed, the input tensor and output tensor after the call,
and the two call-scoped temporaries (none when validation failed before
they were allocated). -/
structure FFNOutcome where
  ok : Bool
  input : Tensor
  output : Tensor
  inputCopy : Option Tensor
  tempTensor : Option Tensor

/-- The feed-forward operator of positionwise_ffn.cpp. The external
layer normalization kernel (not under src) is an explicit parameter LN
taking the learned weight, the learned bias and the tensor. The pipeline
follows the source: validate the model dimension, allocate the copy and
expansion temporaries, copy the input, reshape the output, layer-norm
the copy in place, project up into the expansion buffer, fuse bias and
Relu in place, project down into the copy buffer, fuse the original
input with the projection and the second bias into the output. -/
def PositionwiseFeedForward.forward (p : PositionwiseFeedForward)
    (LN : Tensor → Tensor → Tensor → Tensor)
    (input_tensor output_tensor : Tensor) (is_trans_weight : Bool) : FFNOutcome :=
  let d_ff := if is_trans_weight then p.dense_weight_1.dim 0 else p.dense_weight_1.dim 1
  let model_dim_weight :=
    if is_trans_weight then p.dense_weight_1.dim 1 else p.dense_weight_1.dim 0
  let model_dim := input_tensor.dim 2
  if model_dim_weight ≠ model_dim then
    { ok := false, input := input_tensor, output := output_tensor,
      inputCopy := none, tempTensor := none }
  else
    let batch_size := input_tensor.dim 0
    let input_len := input_tensor.dim 1
    let input_tensor_copy := Tensor.Reshape ⟨[], fun _ => 0⟩ [batch_size, input_len, model_dim]
    let temp_tensor := Tensor.Reshape ⟨[], fun _ => 0⟩ [batch_size * input_len, d_ff]
    let input_tensor_copy := kernels.Copy input_tensor input_tensor_copy
    let output_tensor := Tensor.Reshape output_tensor [batch_size, input_len, model_dim]
    let input_tensor_copy := LN p.layer_norm_weight p.layer_norm_bias input_tensor_copy
    let temp_tensor :=
      kernels.MatMul input_tensor_copy false p.dense_weight_1 is_trans_weight 1 temp_tensor 0
    let temp_tensor := kernels.AddBiasActRelu p.dense_bias_1 temp_tensor
    let input_tensor_copy :=
      kernels.MatMul temp_tensor false p.dense_weight_2 is_trans_weight 1 input_tensor_copy 0
    let output_tensor :=
      kernels.AddInputBias input_tensor input_tensor_copy p.dense_bias_2 output_tensor
    { ok := true, input := input_tensor, output := output_tensor,
      inputCopy := some input_tensor_copy, tempTensor := some temp_tensor }

/-- Variant of the feed-forward operator stated from the claim under
examination: one transposition flag per weight matrix, trans_weight_1
governing the project-up GEMM and the weight dimension resolution,
trans_weight_2 governing the project-down GEMM. -/
def PositionwiseFeedForward.forwardTwoFlags (p : PositionwiseFeedForward)
    (LN : Tensor → Tensor → Tensor → Tensor)
    (input_tensor output_tensor : Tensor) (trans_weight_1 trans_weight_2 : Bool) : FFNOutcome :=
  let d_ff := if trans_weight_1 then p.dense_weight_1.dim 0 else p.dense_weight_1.dim 1
  let model_dim_weight :=
    if trans_weight_1 then p.dense_weight_1.dim 1 else p.dense_weight_1.dim 0
  let model_dim := input_tensor.dim 2
  if model_dim_weight ≠ model_dim then
    { ok := false, input := input_tensor, output := output_tensor,
      inputCopy := none, tempTensor := none }
  else
    let batch_size := input_tensor.dim 0
    let input_len := input_tensor.dim 1
    let input_tensor_copy := Tensor.Reshape ⟨[], fun _ => 0⟩ [batch_size, input_len, model_dim]
    let temp_tensor := Tensor.Reshape ⟨[], fun _ => 0⟩ [batch_size * input_len, d_ff]
    let input_tensor_copy := kernels.Copy input_tensor input_tensor_copy
    let output_tensor := Tensor.Reshape output_tensor [batch_size, input_len, model_dim]
    let input_tensor_copy := LN p.layer_norm_weight p.layer_norm_bias input_tensor_copy
    let temp_tensor :=
      kernels.MatMul input_tensor_copy false p.dense_weight_1 trans_weight_1 1 temp_tensor 0
    let temp_tensor := kernels.AddBiasActRelu p.dense_bias_1 temp_tensor
    let input_tensor_copy :=
      kernels.MatMul temp_tensor false p.dense_weight_2 trans_weight_2 1 input_tensor_copy 0
    let output_tensor :=
      kernels.AddInputBias input_tensor input_tensor_copy p.dense_bias_2 output_tensor
    { ok := true, input := input_tensor, output := output_tensor,
      inputCopy := some input_tensor_copy, tempTensor := some temp_tensor }

/-- Entry of weight 1 as read by the project-up GEMM: logical position
(t1, t2) of the model_dim x d_ff matrix, through the transposition
flag. -/
def w1ent (p : PositionwiseFeedForward) (is_trans_weight : Bool) (D F t1 t2 : ℕ) : ℚ :=
  if is_trans_weight then p.dense_weight_1.data (t2 * D + t1)
  else p.dense_weight_1.data (t1 * F + t2)

/-- Entry of weight 2 as read by the project-down GEMM: logical position
(t2, j) of the d_ff x model_dim matrix, through the transposition
flag. -/
def w2ent (p : PositionwiseFeedForward) (is_trans_weight : Bool) (D F t2 j : ℕ) : ℚ :=
  if is_trans_weight then p.dense_weight_2.data (j * F + t2)
  else p.dense_weight_2.data (t2 * D + j)

/-- The copy temporary right after the copy stage, for an input of
shape [b, s, D]. -/
def copyStage (input_tensor : Tensor) (b s D : ℕ) : Tensor :=
  kernels.Copy input_tensor (Tensor.Reshape ⟨[], fun _ => 0⟩ [b, s, D])

/-- An all-zero tensor of the given shape, for concrete instances. -/
def zeros (dims : List ℕ) : Tensor := { shape := dims, data := fun _ => 0 }

/-- Identity stand-in for the external layer normalization kernel, for
concrete instances. -/
def idLN : Tensor → Tensor → Tensor → Tensor := fun _ _ t => t

/-- Concrete all-zero parameter set with model dimension 2 and expanded
width 3, stored untransposed. -/
def pZero : PositionwiseFeedForward :=
  { dense_weight_1 := zeros [2, 3], dense_bias_1 := zeros [3],
    dense_weight_2 := zeros [3, 2], dense_bias_2 := zeros [2],
    layer_norm_weight := zeros [2], layer_norm_bias := zeros [2] }

/-- Concrete input of shape [1, 1, 2] with entries 5 and 9. -/
def inputW : Tensor := { shape := [1, 1, 2], data := fun idx => if idx = 0 then 5 else 9 }

end layers
end turbo_transformers

namespace fast_transformers
namespace kernels

/-- A row index i below M = batch * heads * seq and a column j below seq
address an element inside the score buffer. -/
lemma row_col_lt (batch_size head_num seq_len i j : ℕ)
    (hi : i < batch_size * head_num * seq_len) (hj : j < seq_len) :
    i * seq_len + j < batch_size * head_num * seq_len * seq_len := by
  calc i * seq_len + j < i * seq_len + seq_len := by omega
    _ = (i + 1) * seq_len := by ring
    _ ≤ batch_size * head_num * seq_len * seq_len :=
        Nat.mul_le_mul_right _ (Nat.succ_le_of_lt hi)

/-- Flat index arithmetic: the row of element i * seq + j is i. -/
lemma row_div (seq_len i j : ℕ) (hj : j < seq_len) :
    (i * seq_len + j) / seq_len = i := by
  have hs : 0 < seq_len := Nat.pos_of_ne_zero (by omega)
  rw [mul_comm i seq_len, Nat.mul_add_div hs, Nat.div_eq_of_lt hj, Nat.add_zero]

/-- Flat index arithmetic: the column of element i * seq + j is j. -/
lemma row_mod (seq_len i j : ℕ) (hj : j < seq_len) :
    (i * seq_len + j) % seq_len = j := by
  rw [mul_comm i seq_len, Nat.mul_add_mod, Nat.mod_eq_of_lt hj]

/-- The value SoftmaxMask stores at row i, column j of the buffer. -/
lemma SoftmaxMask_at_row (E : ℚ → ℚ) (qk_buf attr_mask : ℕ → ℚ)
    (batch_size head_num seq_len : ℕ) (scaler : ℚ) (i j : ℕ)
    (hi : i < batch_size * head_num * seq_len) (hj : j < seq_len) :
    SoftmaxMask E qk_buf attr_mask batch_size head_num seq_len scaler (i * seq_len + j) =
      expVal E qk_buf attr_mask head_num seq_len scaler i j *
        (1 / (rowSum E qk_buf attr_mask head_num seq_len scaler i + g_epsilon)) := by
  unfold SoftmaxMask
  rw [if_pos (row_col_lt batch_size head_num seq_len i j hi hj),
    row_div seq_len i j hj, row_mod seq_len i j hj]

/-- C1: for every row i of the score buffer and every column j, the
SoftmaxMask output at that element is the exponential of the scaled
score plus the mask value at offset i / (heads * seq) * seq + j,
multiplied by the reciprocal of the epsilon-guarded row sum; and the
output of row i reads no score element outside row i and no mask element
outside the batch slice at that offset. -/
theorem SoftmaxMask_row_formula (E : ℚ → ℚ) (qk_buf attr_mask : ℕ → ℚ)
    (batch_size head_num seq_len : ℕ) (scaler : ℚ) (i j : ℕ)
    (hi : i < batch_size * head_num * seq_len) (hj : j < seq_len) :
    SoftmaxMask E qk_buf attr_mask batch_size head_num seq_len scaler (i * seq_len + j) =
      E (qk_buf (i * seq_len + j) * scaler +
         attr_mask (i / (head_num * seq_len) * seq_len + j)) *
        (1 / (rowSum E qk_buf attr_mask head_num seq_len scaler i + g_epsilon)) ∧
    (∀ qk_buf2 attr_mask2 : ℕ → ℚ,
      (∀ j2, j2 < seq_len → qk_buf2 (i * seq_len + j2) = qk_buf (i * seq_len + j2)) →
      (∀ j2, j2 < seq_len →
        attr_mask2 (i / (head_num * seq_len) * seq_len + j2) =
          attr_mask (i / (head_num * seq_len) * seq_len + j2)) →
      SoftmaxMask E qk_buf2 attr_mask2 batch_size head_num seq_len scaler (i * seq_len + j) =
        SoftmaxMask E qk_buf attr_mask batch_size head_num seq_len scaler (i * seq_len + j)) := by
  constructor
  · rw [SoftmaxMask_at_row E qk_buf attr_mask batch_size head_num seq_len scaler i j hi hj]
    rfl
  · intro qk_buf2 attr_mask2 hqk hmask
    have hexp : ∀ j2, j2 < seq_len →
        expVal E qk_buf2 attr_mask2 head_num seq_len scaler i j2 =
          expVal E qk_buf attr_mask head_num seq_len scaler i j2 := by
      intro j2 hj2
      unfold expVal
      rw [hqk j2 hj2, hmask j2 hj2]
    have hsum : rowSum E qk_buf2 attr_mask2 head_num seq_len scaler i =
        rowSum E qk_buf attr_mask head_num seq_len scaler i :=
      Finset.sum_congr rfl fun j2 hj2 => hexp j2 (Finset.mem_range.mp hj2)
    rw [SoftmaxMask_at_row E qk_buf2 attr_mask2 batch_size head_num seq_len scaler i j hi hj,
      SoftmaxMask_at_row E qk_buf attr_mask batch_size head_num seq_len scaler i j hi hj,
      hexp j hj, hsum]

/-- Witness for C1 at a concrete instance. -/
theorem SoftmaxMask_row_formula_witness :
    SoftmaxMask (fun _ => (1 : ℚ)) (fun _ => 0) (fun _ => 0) 1 1 1 1 (0 * 1 + 0) =
      (1 : ℚ) * (1 / (rowSum (fun _ => (1 : ℚ)) (fun _ => 0) (fun _ => 0) 1 1 1 0 + g_epsilon)) ∧
    (∀ qk_buf2 attr_mask2 : ℕ → ℚ,
      (∀ j2, j2 < 1 → qk_buf2 (0 * 1 + j2) = 0) →
      (∀ j2, j2 < 1 → attr_mask2 (0 / (1 * 1) * 1 + j2) = 0) →
      SoftmaxMask (fun _ => (1 : ℚ)) qk_buf2 attr_mask2 1 1 1 1 (0 * 1 + 0) =
        SoftmaxMask (fun _ => (1 : ℚ)) (fun _ => 0) (fun _ => 0) 1 1 1 1 (0 * 1 + 0)) :=
  SoftmaxMask_row_formula (fun _ => (1 : ℚ)) (fun _ => 0) (fun _ => 0) 1 1 1 1 0 0
    (by decide) (by decide)

/-- The sum of the outputs of one row equals the raw row sum divided by
the epsilon-guarded row sum. -/
lemma SoftmaxMask_row_sum_eq (E : ℚ → ℚ) (qk_buf attr_mask : ℕ → ℚ)
    (batch_size head_num seq_len : ℕ) (scaler : ℚ) (i : ℕ)
    (hi : i < batch_size * head_num * seq_len) :
    (∑ j ∈ Finset.range seq_len,
        SoftmaxMask E qk_buf attr_mask batch_size head_num seq_len scaler (i * seq_len + j)) =
      rowSum E qk_buf attr_mask head_num seq_len scaler i *
        (1 / (rowSum E qk_buf attr_mask head_num seq_len scaler i + g_epsilon)) := by
  rw [rowSum, Finset.sum_mul]
  exact Finset.sum_congr rfl fun j hj =>
    SoftmaxMask_at_row E qk_buf attr_mask batch_size head_num seq_len scaler i j hi
      (Finset.mem_range.mp hj)

/-- C2: after SoftmaxMask, a row whose raw exponentiated sum is not
driven near zero (at least 1/100) has output values summing to 1 within
1e-4, and a fully masked row (all exponentiated values exactly zero, as
float underflow produces) has output values summing to exactly 0; no
error is raised in either case. -/
theorem SoftmaxMask_row_sum_invariant (E : ℚ → ℚ)
    (qk_buf attr_mask : ℕ → ℚ) (batch_size head_num seq_len : ℕ) (scaler : ℚ) (i : ℕ)
    (hi : i < batch_size * head_num * seq_len) :
    ((1 : ℚ) / 100 ≤ rowSum E qk_buf attr_mask head_num seq_len scaler i →
      |(∑ j ∈ Finset.range seq_len,
          SoftmaxMask E qk_buf attr_mask batch_size head_num seq_len scaler
            (i * seq_len + j)) - 1| ≤ 1 / 10000) ∧
    ((∀ j, j < seq_len → expVal E qk_buf attr_mask head_num seq_len scaler i j = 0) →
      (∑ j ∈ Finset.range seq_len,
          SoftmaxMask E qk_buf attr_mask batch_size head_num seq_len scaler
            (i * seq_len + j)) = 0) := by
  have hrow := SoftmaxMask_row_sum_eq E qk_buf attr_mask batch_size head_num seq_len scaler i hi
  constructor
  · intro hS
    set S := rowSum E qk_buf attr_mask head_num seq_len scaler i with hSdef
    have heps : g_epsilon = 1 / 1000000 := rfl
    have hpos : 0 < S + g_epsilon := by rw [heps]; linarith
    rw [hrow]
    have hval : S * (1 / (S + g_epsilon)) - 1 = -(g_epsilon / (S + g_epsilon)) := by
      field_simp
    rw [hval, abs_neg, abs_of_nonneg (div_nonneg (by rw [heps]; norm_num) hpos.le)]
    rw [div_le_iff₀ hpos, heps]
    linarith
  · intro hz
    have hS0 : rowSum E qk_buf attr_mask head_num seq_len scaler i = 0 :=
      Finset.sum_eq_zero fun j hj => hz j (Finset.mem_range.mp hj)
    rw [hrow, hS0, zero_mul]

/-- Witness for C2 at a concrete instance. -/
theorem SoftmaxMask_row_sum_invariant_witness :
    ((1 : ℚ) / 100 ≤ rowSum (fun _ => 1) (fun _ => 0) (fun _ => 0) 1 1 1 0 →
      |(∑ j ∈ Finset.range 1,
          SoftmaxMask (fun _ => (1 : ℚ)) (fun _ => 0) (fun _ => 0) 1 1 1 1
            (0 * 1 + j)) - 1| ≤ 1 / 10000) ∧
    ((∀ j, j < 1 → expVal (fun _ => (1 : ℚ)) (fun _ => 0) (fun _ => 0) 1 1 1 0 j = 0) →
      (∑ j ∈ Finset.range 1,
          SoftmaxMask (fun _ => (1 : ℚ)) (fun _ => 0) (fun _ => 0) 1 1 1 1
            (0 * 1 + j)) = 0) :=
  SoftmaxMask_row_sum_invariant (fun _ => 1)
    (fun _ => 0) (fun _ => 0) 1 1 1 1 0 (by decide)

/-- A row update leaves every element outside its row unchanged. -/
lemma rowUpdate_off_row (E : ℚ → ℚ) (attr_mask : ℕ → ℚ) (head_num seq_len : ℕ)
    (scaler : ℚ) (a : ℕ) (buf : ℕ → ℚ) (idx : ℕ) (hne : idx / seq_len ≠ a) :
    rowUpdate E attr_mask head_num seq_len scaler a buf idx = buf idx := by
  simp only [rowUpdate]
  rw [if_neg hne]

/-- If the buffer agrees with the original scores on row a, the row
update writes on row a exactly the direct SoftmaxMask value computed
from the original scores. -/
lemma rowUpdate_eq_of_row (E : ℚ → ℚ) (qk_buf attr_mask : ℕ → ℚ)
    (head_num seq_len : ℕ) (scaler : ℚ) (a : ℕ) (buf : ℕ → ℚ)
    (hrow : ∀ idx2, idx2 / seq_len = a → buf idx2 = qk_buf idx2)
    (idx : ℕ) (hidx : idx / seq_len = a) :
    rowUpdate E attr_mask head_num seq_len scaler a buf idx =
      expVal E qk_buf attr_mask head_num seq_len scaler a (idx % seq_len) *
        (1 / (rowSum E qk_buf attr_mask head_num seq_len scaler a + g_epsilon)) := by
  simp only [rowUpdate]
  rw [if_pos hidx]
  have hsplit : a * seq_len + idx % seq_len = idx := by
    rw [mul_comm, ← hidx]
    exact Nat.div_add_mod idx seq_len
  have hexp : rowExpBuf E attr_mask head_num seq_len scaler a buf idx =
      expVal E qk_buf attr_mask head_num seq_len scaler a (idx % seq_len) := by
    simp only [rowExpBuf, expVal]
    rw [if_pos hidx, hrow idx hidx, hsplit]
  have hsum : (∑ j ∈ Finset.range seq_len,
      rowExpBuf E attr_mask head_num seq_len scaler a buf (a * seq_len + j)) =
      rowSum E qk_buf attr_mask head_num seq_len scaler a := by
    apply Finset.sum_congr rfl
    intro j hj
    have hj2 := Finset.mem_range.mp hj
    simp only [rowExpBuf, expVal]
    rw [if_pos (row_div seq_len a j hj2), row_mod seq_len a j hj2,
      hrow _ (row_div seq_len a j hj2)]
  rw [hexp, hsum]

/-- Executing the row updates sequentially in any duplicate-free order
computes, on every row listed, the direct per-row value from the
original scores, and leaves every other element unchanged. -/
lemma foldl_rowUpdate_eq (E : ℚ → ℚ) (qk_buf attr_mask : ℕ → ℚ)
    (head_num seq_len : ℕ) (scaler : ℚ) :
    ∀ (l : List ℕ), l.Nodup → ∀ (buf : ℕ → ℚ),
      (∀ idx, idx / seq_len ∈ l → buf idx = qk_buf idx) → ∀ idx,
      l.foldl (fun b i => rowUpdate E attr_mask head_num seq_len scaler i b) buf idx =
        if idx / seq_len ∈ l then
          expVal E qk_buf attr_mask head_num seq_len scaler (idx / seq_len) (idx % seq_len) *
            (1 / (rowSum E qk_buf attr_mask head_num seq_len scaler (idx / seq_len) + g_epsilon))
        else buf idx := by
  intro l
  induction l with
  | nil => intro _ buf _ idx; simp
  | cons a t ih =>
    intro hnd buf hbuf idx
    have hna : a ∉ t := (List.nodup_cons.mp hnd).1
    have hndt : t.Nodup := (List.nodup_cons.mp hnd).2
    have hrow_a : ∀ idx2, idx2 / seq_len = a → buf idx2 = qk_buf idx2 := fun idx2 h2 =>
      hbuf idx2 (by rw [h2]; exact List.mem_cons_self a t)
    have hbuf2 : ∀ idx2, idx2 / seq_len ∈ t →
        rowUpdate E attr_mask head_num seq_len scaler a buf idx2 = qk_buf idx2 := by
      intro idx2 h2
      have hne : idx2 / seq_len ≠ a := fun he => hna (he ▸ h2)
      rw [rowUpdate_off_row E attr_mask head_num seq_len scaler a buf idx2 hne]
      exact hbuf idx2 (List.mem_cons_of_mem a h2)
    rw [List.foldl_cons, ih hndt _ hbuf2 idx]
    by_cases ht : idx / seq_len ∈ t
    · rw [if_pos ht, if_pos (List.mem_cons_of_mem a ht)]
    · rw [if_neg ht]
      by_cases ha : idx / seq_len = a
      · rw [if_pos (by rw [ha]; exact List.mem_cons_self a t), ha]
        exact rowUpdate_eq_of_row E qk_buf attr_mask head_num seq_len scaler a buf
          hrow_a idx ha
      · have hnotin : idx / seq_len ∉ a :: t := by
          simp [List.mem_cons, ha, ht]
        rw [if_neg hnotin]
        exact rowUpdate_off_row E attr_mask head_num seq_len scaler a buf idx ha

/-- Any serialization of the parallel loop whose schedule is a
permutation of the rows computes exactly SoftmaxMask. -/
lemma SoftmaxMaskSeq_eq (E : ℚ → ℚ) (qk_buf attr_mask : ℕ → ℚ)
    (batch_size head_num seq_len : ℕ) (scaler : ℚ) (l : List ℕ)
    (hl : l.Perm (List.range (batch_size * head_num * seq_len))) (idx : ℕ) :
    SoftmaxMaskSeq E qk_buf attr_mask batch_size head_num seq_len scaler l idx =
      SoftmaxMask E qk_buf attr_mask batch_size head_num seq_len scaler idx := by
  have hnd : l.Nodup := hl.nodup_iff.mpr (List.nodup_range _)
  have hmem : ∀ x, x ∈ l ↔ x < batch_size * head_num * seq_len := fun x => by
    rw [hl.mem_iff, List.mem_range]
  rw [SoftmaxMaskSeq,
    foldl_rowUpdate_eq E qk_buf attr_mask head_num seq_len scaler l hnd qk_buf
      (fun _ _ => rfl) idx]
  unfold SoftmaxMask
  rcases Nat.eq_zero_or_pos seq_len with hs | hs
  · have hM : batch_size * head_num * seq_len = 0 := by rw [hs, mul_zero]
    have h1 : idx / seq_len ∉ l := fun hin => by
      have h3 := (hmem _).mp hin
      rw [hM] at h3
      exact Nat.not_lt_zero _ h3
    have h2 : ¬ idx < batch_size * head_num * seq_len * seq_len := by
      rw [hM]
      omega
    rw [if_neg h1, if_neg h2]
  · have hiff : idx / seq_len ∈ l ↔ idx < batch_size * head_num * seq_len * seq_len := by
      rw [hmem, Nat.div_lt_iff_lt_mul hs]
    by_cases hlt : idx < batch_size * head_num * seq_len * seq_len
    · rw [if_pos (hiff.mpr hlt), if_pos hlt]
    · rw [if_neg (fun hin => hlt (hiff.mp hin)), if_neg hlt]

/-- C9: SoftmaxMask is deterministic with respect to the partitioning of
the parallel loop: any two serializations whose schedules are
permutations of the rows produce the same buffer, and both equal the
direct per-row specification, because each row depends only on its own
scores and its batch mask slice. -/
theorem SoftmaxMask_deterministic (E : ℚ → ℚ) (qk_buf attr_mask : ℕ → ℚ)
    (batch_size head_num seq_len : ℕ) (scaler : ℚ) (l1 l2 : List ℕ)
    (h1 : l1.Perm (List.range (batch_size * head_num * seq_len)))
    (h2 : l2.Perm (List.range (batch_size * head_num * seq_len))) (idx : ℕ) :
    SoftmaxMaskSeq E qk_buf attr_mask batch_size head_num seq_len scaler l1 idx =
      SoftmaxMaskSeq E qk_buf attr_mask batch_size head_num seq_len scaler l2 idx ∧
    SoftmaxMaskSeq E qk_buf attr_mask batch_size head_num seq_len scaler l1 idx =
      SoftmaxMask E qk_buf attr_mask batch_size head_num seq_len scaler idx := by
  have e1 := SoftmaxMaskSeq_eq E qk_buf attr_mask batch_size head_num seq_len scaler l1 h1 idx
  have e2 := SoftmaxMaskSeq_eq E qk_buf attr_mask batch_size head_num seq_len scaler l2 h2 idx
  exact ⟨e1.trans e2.symm, e1⟩

/-- Witness for C9 at a concrete instance: two opposite schedules of the
two rows of a 1 x 1 x 2 score buffer. -/
theorem SoftmaxMask_deterministic_witness :
    SoftmaxMaskSeq (fun _ => (1 : ℚ)) (fun _ => 0) (fun _ => 0) 1 1 2 1 [0, 1] 0 =
      SoftmaxMaskSeq (fun _ => (1 : ℚ)) (fun _ => 0) (fun _ => 0) 1 1 2 1 [1, 0] 0 ∧
    SoftmaxMaskSeq (fun _ => (1 : ℚ)) (fun _ => 0) (fun _ => 0) 1 1 2 1 [0, 1] 0 =
      SoftmaxMask (fun _ => (1 : ℚ)) (fun _ => 0) (fun _ => 0) 1 1 2 1 0 :=
  SoftmaxMask_deterministic (fun _ => 1) (fun _ => 0) (fun _ => 0) 1 1 2 1 [0, 1] [1, 0]
    (by decide) (by decide) 0

/-- C8: SoftmaxMask never divides by zero: the epsilon constant is the
positive value 1e-6, every exponentiated value is nonnegative (the float
exponential returns nonnegative values), hence every per-row denominator
rowSum + g_epsilon is strictly positive; no error path exists. -/
theorem SoftmaxMask_denominator_pos (E : ℚ → ℚ) (hE : ∀ x, 0 ≤ E x)
    (qk_buf attr_mask : ℕ → ℚ) (head_num seq_len : ℕ) (scaler : ℚ) (i : ℕ) :
    g_epsilon = 1 / 1000000 ∧ 0 < g_epsilon ∧
    (∀ j, 0 ≤ expVal E qk_buf attr_mask head_num seq_len scaler i j) ∧
    0 < rowSum E qk_buf attr_mask head_num seq_len scaler i + g_epsilon := by
  refine ⟨rfl, by norm_num [g_epsilon], fun j => hE _, ?_⟩
  have hsum : 0 ≤ rowSum E qk_buf attr_mask head_num seq_len scaler i :=
    Finset.sum_nonneg fun j _ => hE _
  have heps : (0 : ℚ) < g_epsilon := by norm_num [g_epsilon]
  linarith

/-- Witness for C8 at a concrete instance. -/
theorem SoftmaxMask_denominator_pos_witness :
    g_epsilon = 1 / 1000000 ∧ 0 < g_epsilon ∧
    (∀ j, 0 ≤ expVal (fun _ => 1) (fun _ => 0) (fun _ => 0) 2 3 1 0 j) ∧
    0 < rowSum (fun _ => 1) (fun _ => 0) (fun _ => 0) 2 3 1 0 + g_epsilon :=
  SoftmaxMask_denominator_pos (fun _ => 1) (fun _ => zero_le_one)
    (fun _ => 0) (fun _ => 0) 2 3 1 0

end kernels
end fast_transformers

namespace turbo_transformers
namespace layers

/-- A block-local flat index stays inside the m x n region. -/
lemma mul_index_lt (m n i j : ℕ) (hi : i < m) (hj : j < n) :
    i * n + j < m * n := by
  calc i * n + j < i * n + n := by omega
    _ = (i + 1) * n := by ring
    _ ≤ m * n := Nat.mul_le_mul_right _ (Nat.succ_le_of_lt hi)

/-- Element 0 of a two-element shape. -/
lemma getD2_0 (x y : ℕ) : ([x, y] : List ℕ).getD 0 0 = x := rfl

/-- Element 1 of a two-element shape. -/
lemma getD2_1 (x y : ℕ) : ([x, y] : List ℕ).getD 1 0 = y := rfl

/-- Innermost dimension of a two-element shape. -/
lemma getLastD2 (x y : ℕ) : ([x, y] : List ℕ).getLastD 1 = y := rfl

/-- Innermost dimension of a three-element shape. -/
lemma getLastD3 (x y z : ℕ) : ([x, y, z] : List ℕ).getLastD 1 = z := rfl

/-- Leading dimensions of a two-element shape. -/
lemma dropLast2 (x y : ℕ) : ([x, y] : List ℕ).dropLast = [x] := rfl

/-- Leading dimensions of a three-element shape. -/
lemma dropLast3 (x y z : ℕ) : ([x, y, z] : List ℕ).dropLast = [x, y] := rfl

/-- Element count of a one-element shape. -/
lemma prod1 (x : ℕ) : ([x] : List ℕ).prod = x := by simp

/-- Element count of a two-element shape. -/
lemma prod2 (x y : ℕ) : ([x, y] : List ℕ).prod = x * y := by simp

/-- Element count of a three-element shape. -/
lemma prod3 (x y z : ℕ) : ([x, y, z] : List ℕ).prod = x * (y * z) := by simp

/-- C10: the single transposition flag of the feed-forward operator
governs both weight matrices at once: the call coincides with the
two-flag variant instantiated with the same flag for weight 1 and
weight 2; no per-weight flag exists in the operator. -/
theorem ffn_single_trans_flag (p : PositionwiseFeedForward)
    (LN : Tensor → Tensor → Tensor → Tensor)
    (input_tensor output_tensor : Tensor) (is_trans_weight : Bool) :
    p.forward LN input_tensor output_tensor is_trans_weight =
      p.forwardTwoFlags LN input_tensor output_tensor is_trans_weight is_trans_weight :=
  rfl

/-- C4: when the model dimension of weight 1 (resolved through the
transposition flag) differs from the innermost dimension of the input,
the call fails at validation: no temporary is allocated, no computation
runs, and the input tensor and the previously supplied output tensor are
returned unchanged. -/
theorem ffn_shape_mismatch_fails (p : PositionwiseFeedForward)
    (LN : Tensor → Tensor → Tensor → Tensor)
    (input_tensor output_tensor : Tensor) (is_trans_weight : Bool)
    (hne : (if is_trans_weight then p.dense_weight_1.dim 1 else p.dense_weight_1.dim 0) ≠
      input_tensor.dim 2) :
    (p.forward LN input_tensor output_tensor is_trans_weight).ok = false ∧
    (p.forward LN input_tensor output_tensor is_trans_weight).input = input_tensor ∧
    (p.forward LN input_tensor output_tensor is_trans_weight).output = output_tensor ∧
    (p.forward LN input_tensor output_tensor is_trans_weight).inputCopy = none ∧
    (p.forward LN input_tensor output_tensor is_trans_weight).tempTensor = none := by
  simp only [PositionwiseFeedForward.forward]
  rw [if_pos hne]
  exact ⟨rfl, rfl, rfl, rfl, rfl⟩

/-- Witness for C4 at a concrete instance: a 2 x 3 untransposed weight
against an input of innermost dimension 5. -/
theorem ffn_shape_mismatch_fails_witness :
    (PositionwiseFeedForward.forward
        ⟨⟨[2, 3], fun _ => 0⟩, ⟨[3], fun _ => 0⟩, ⟨[3, 2], fun _ => 0⟩,
         ⟨[2], fun _ => 0⟩, ⟨[5], fun _ => 0⟩, ⟨[5], fun _ => 0⟩⟩
        (fun _ _ t => t) ⟨[1, 1, 5], fun _ => 0⟩ ⟨[1, 1, 5], fun _ => 7⟩ false).ok = false ∧
    (PositionwiseFeedForward.forward
        ⟨⟨[2, 3], fun _ => 0⟩, ⟨[3], fun _ => 0⟩, ⟨[3, 2], fun _ => 0⟩,
         ⟨[2], fun _ => 0⟩, ⟨[5], fun _ => 0⟩, ⟨[5], fun _ => 0⟩⟩
        (fun _ _ t => t) ⟨[1, 1, 5], fun _ => 0⟩ ⟨[1, 1, 5], fun _ => 7⟩ false).input =
      ⟨[1, 1, 5], fun _ => 0⟩ ∧
    (PositionwiseFeedForward.forward
        ⟨⟨[2, 3], fun _ => 0⟩, ⟨[3], fun _ => 0⟩, ⟨[3, 2], fun _ => 0⟩,
         ⟨[2], fun _ => 0⟩, ⟨[5], fun _ => 0⟩, ⟨[5], fun _ => 0⟩⟩
        (fun _ _ t => t) ⟨[1, 1, 5], fun _ => 0⟩ ⟨[1, 1, 5], fun _ => 7⟩ false).output =
      ⟨[1, 1, 5], fun _ => 7⟩ ∧
    (PositionwiseFeedForward.forward
        ⟨⟨[2, 3], fun _ => 0⟩, ⟨[3], fun _ => 0⟩, ⟨[3, 2], fun _ => 0⟩,
         ⟨[2], fun _ => 0⟩, ⟨[5], fun _ => 0⟩, ⟨[5], fun _ => 0⟩⟩
        (fun _ _ t => t) ⟨[1, 1, 5], fun _ => 0⟩ ⟨[1, 1, 5], fun _ => 7⟩ false).inputCopy =
      none ∧
    (PositionwiseFeedForward.forward
        ⟨⟨[2, 3], fun _ => 0⟩, ⟨[3], fun _ => 0⟩, ⟨[3, 2], fun _ => 0⟩,
         ⟨[2], fun _ => 0⟩, ⟨[5], fun _ => 0⟩, ⟨[5], fun _ => 0⟩⟩
        (fun _ _ t => t) ⟨[1, 1, 5], fun _ => 0⟩ ⟨[1, 1, 5], fun _ => 7⟩ false).tempTensor =
      none :=
  ffn_shape_mismatch_fails
    ⟨⟨[2, 3], fun _ => 0⟩, ⟨[3], fun _ => 0⟩, ⟨[3, 2], fun _ => 0⟩,
     ⟨[2], fun _ => 0⟩, ⟨[5], fun _ => 0⟩, ⟨[5], fun _ => 0⟩⟩
    (fun _ _ t => t) ⟨[1, 1, 5], fun _ => 0⟩ ⟨[1, 1, 5], fun _ => 7⟩ false
    (by decide)

/-- C6: the feed-forward operator never mutates its input tensor: after
every call, completed successfully or failed at validation, the input
tensor is unchanged; all work happens on the call-scoped copy and
expansion temporaries and on the output tensor. -/
theorem ffn_input_not_mutated (p : PositionwiseFeedForward)
    (LN : Tensor → Tensor → Tensor → Tensor)
    (input_tensor output_tensor : Tensor) (is_trans_weight : Bool) :
    (p.forward LN input_tensor output_tensor is_trans_weight).input = input_tensor := by
  simp only [PositionwiseFeedForward.forward]
  split <;> split <;> rfl

/-- Data-flow of a validated feed-forward call, element by element: the
output at flat position idx (row idx / D, feature idx % D) is the input
element plus the project-down inner product of the Relu-rectified,
bias-shifted project-up row against weight 2, plus bias 2 at the
feature position; LN is the external layer normalization kernel. -/
lemma ffn_output_data (p : PositionwiseFeedForward)
    (LN : Tensor → Tensor → Tensor → Tensor)
    (input_tensor output_tensor : Tensor) (is_trans_weight : Bool) (b s D F : ℕ)
    (hshape : input_tensor.shape = [b, s, D])
    (hw1 : p.dense_weight_1.shape = if is_trans_weight then [F, D] else [D, F])
    (hw2 : p.dense_weight_2.shape = if is_trans_weight then [D, F] else [F, D])
    (hLN : ∀ w bb t, (LN w bb t).shape = t.shape)
    (idx : ℕ) (hidx : idx < b * s * D) :
    (p.forward LN input_tensor output_tensor is_trans_weight).output.data idx =
      input_tensor.data idx +
        (∑ t2 ∈ Finset.range F,
          max 0 ((∑ t1 ∈ Finset.range D,
              (LN p.layer_norm_weight p.layer_norm_bias (copyStage input_tensor b s D)).data
                (idx / D * D + t1) * w1ent p is_trans_weight D F t1 t2) +
            p.dense_bias_1.data t2) *
          w2ent p is_trans_weight D F t2 (idx % D)) +
        p.dense_bias_2.data (idx % D) := by
  have hd0 : input_tensor.dim 0 = b := by simp [Tensor.dim, hshape]
  have hd1 : input_tensor.dim 1 = s := by simp [Tensor.dim, hshape]
  have hd2 : input_tensor.dim 2 = D := by simp [Tensor.dim, hshape]
  have hD : 0 < D := by
    rcases Nat.eq_zero_or_pos D with h | h
    · subst h; omega
    · exact h
  have hrow : idx / D < b * s := by
    rw [Nat.div_lt_iff_lt_mul hD]
    omega
  have ha : idx < b * (s * D) := by rw [← Nat.mul_assoc]; exact hidx
  have hlns : (LN p.layer_norm_weight p.layer_norm_bias
      (kernels.Copy input_tensor ⟨[b, s, D], fun _ => 0⟩)).shape = [b, s, D] := by
    rw [hLN]; rfl
  cases is_trans_weight with
  | false =>
    simp only [Bool.false_eq_true, if_false] at hw1 hw2
    have h10 : p.dense_weight_1.dim 0 = D := by simp [Tensor.dim, hw1]
    simp only [PositionwiseFeedForward.forward, copyStage, w1ent, w2ent,
      Bool.false_eq_true, if_false, Tensor.Reshape, hd0, hd1, hd2]
    rw [if_neg (show ¬(p.dense_weight_1.dim 0 ≠ D) from by rw [h10]; exact fun h => h rfl)]
    simp only [kernels.AddInputBias, kernels.MatMul, kernels.AddBiasActRelu,
      Bool.false_eq_true, if_false,
      Tensor.numel, Tensor.lastDim, Tensor.dim, hlns, hw1, hw2,
      getD2_0, getD2_1, getLastD2, getLastD3, dropLast2, dropLast3,
      prod1, prod2, prod3,
      mul_one, one_mul, zero_mul, mul_zero, add_zero]
    rw [if_pos ha, if_pos hidx]
    congr 1
    congr 1
    refine Finset.sum_congr rfl fun t2 ht2 => ?_
    have ht2F : t2 < F := Finset.mem_range.mp ht2
    have he : idx / D * F + t2 < b * s * F :=
      mul_index_lt (b * s) F (idx / D) t2 hrow ht2F
    simp only [if_pos he,
      fast_transformers.kernels.row_div F (idx / D) t2 ht2F,
      fast_transformers.kernels.row_mod F (idx / D) t2 ht2F]
  | true =>
    simp only [eq_self_iff_true, if_true] at hw1 hw2
    have h11 : p.dense_weight_1.dim 1 = D := by simp [Tensor.dim, hw1]
    simp only [PositionwiseFeedForward.forward, copyStage, w1ent, w2ent,
      eq_self_iff_true, if_true, Tensor.Reshape, hd0, hd1, hd2]
    rw [if_neg (show ¬(p.dense_weight_1.dim 1 ≠ D) from by rw [h11]; exact fun h => h rfl)]
    simp only [kernels.AddInputBias, kernels.MatMul, kernels.AddBiasActRelu,
      eq_self_iff_true, if_true, Bool.false_eq_true, if_false,
      Tensor.numel, Tensor.lastDim, Tensor.dim, hlns, hw1, hw2,
      getD2_0, getD2_1, getLastD2, getLastD3, dropLast2, dropLast3,
      prod1, prod2, prod3,
      mul_one, one_mul, zero_mul, mul_zero, add_zero]
    rw [if_pos ha, if_pos hidx]
    congr 1
    congr 1
    refine Finset.sum_congr rfl fun t2 ht2 => ?_
    have ht2F : t2 < F := Finset.mem_range.mp ht2
    have he : idx / D * F + t2 < b * s * F :=
      mul_index_lt (b * s) F (idx / D) t2 hrow ht2F
    simp only [if_pos he,
      fast_transformers.kernels.row_div F (idx / D) t2 ht2F,
      fast_transformers.kernels.row_mod F (idx / D) t2 ht2F]

/-- C3: a validated feed-forward call runs the pipeline copy,
layer-normalize, project-up, bias plus Relu, project-down, residual: the
output equals the original input plus the project-down of the rectified
projected-up layer-normalized copy plus bias 2, elementwise; LN is the
external layer normalization kernel and the residual reads the original
input, not the normalized copy. -/
theorem ffn_pipeline_formula (p : PositionwiseFeedForward)
    (LN : Tensor → Tensor → Tensor → Tensor)
    (input_tensor output_tensor : Tensor) (is_trans_weight : Bool) (b s D F : ℕ)
    (hshape : input_tensor.shape = [b, s, D])
    (hw1 : p.dense_weight_1.shape = if is_trans_weight then [F, D] else [D, F])
    (hw2 : p.dense_weight_2.shape = if is_trans_weight then [D, F] else [F, D])
    (hLN : ∀ w bb t, (LN w bb t).shape = t.shape) :
    (p.forward LN input_tensor output_tensor is_trans_weight).ok = true ∧
    ∀ idx, idx < b * s * D →
      (p.forward LN input_tensor output_tensor is_trans_weight).output.data idx =
        input_tensor.data idx +
          (∑ t2 ∈ Finset.range F,
            max 0 ((∑ t1 ∈ Finset.range D,
                (LN p.layer_norm_weight p.layer_norm_bias (copyStage input_tensor b s D)).data
                  (idx / D * D + t1) * w1ent p is_trans_weight D F t1 t2) +
              p.dense_bias_1.data t2) *
            w2ent p is_trans_weight D F t2 (idx % D)) +
          p.dense_bias_2.data (idx % D) := by
  have hvalid : (if is_trans_weight then p.dense_weight_1.dim 1
      else p.dense_weight_1.dim 0) = input_tensor.dim 2 := by
    cases is_trans_weight with
    | false =>
      simp only [Bool.false_eq_true, if_false] at hw1 ⊢
      simp [Tensor.dim, hw1, hshape]
    | true =>
      simp only [eq_self_iff_true, if_true] at hw1 ⊢
      simp [Tensor.dim, hw1, hshape]
  constructor
  · simp only [PositionwiseFeedForward.forward]
    rw [if_neg (show ¬_ ≠ _ from fun h => h hvalid)]
  · exact fun idx hidx =>
      ffn_output_data p LN input_tensor output_tensor is_trans_weight b s D F
        hshape hw1 hw2 hLN idx hidx

/-- C5: with all four dense parameters zero, a validated feed-forward
call returns the input unchanged: the project-down contribution is zero
and the residual stage passes the original input through. -/
theorem ffn_zero_weights_identity (p : PositionwiseFeedForward)
    (LN : Tensor → Tensor → Tensor → Tensor)
    (input_tensor output_tensor : Tensor) (is_trans_weight : Bool) (b s D F : ℕ)
    (hshape : input_tensor.shape = [b, s, D])
    (hw1 : p.dense_weight_1.shape = if is_trans_weight then [F, D] else [D, F])
    (hw2 : p.dense_weight_2.shape = if is_trans_weight then [D, F] else [F, D])
    (hLN : ∀ w bb t, (LN w bb t).shape = t.shape)
    (hz1 : ∀ i, p.dense_weight_1.data i = 0)
    (hz2 : ∀ i, p.dense_weight_2.data i = 0)
    (hzb1 : ∀ i, p.dense_bias_1.data i = 0)
    (hzb2 : ∀ i, p.dense_bias_2.data i = 0) :
    (p.forward LN input_tensor output_tensor is_trans_weight).ok = true ∧
    (p.forward LN input_tensor output_tensor is_trans_weight).output.shape =
      input_tensor.shape ∧
    ∀ idx, idx < input_tensor.numel →
      (p.forward LN input_tensor output_tensor is_trans_weight).output.data idx =
        input_tensor.data idx := by
  have hd0 : input_tensor.dim 0 = b := by simp [Tensor.dim, hshape]
  have hd1 : input_tensor.dim 1 = s := by simp [Tensor.dim, hshape]
  have hd2 : input_tensor.dim 2 = D := by simp [Tensor.dim, hshape]
  have hvalid : (if is_trans_weight then p.dense_weight_1.dim 1
      else p.dense_weight_1.dim 0) = input_tensor.dim 2 := by
    cases is_trans_weight with
    | false =>
      simp only [Bool.false_eq_true, if_false] at hw1 ⊢
      simp [Tensor.dim, hw1, hshape]
    | true =>
      simp only [eq_self_iff_true, if_true] at hw1 ⊢
      simp [Tensor.dim, hw1, hshape]
  have hcond : ¬((if is_trans_weight then p.dense_weight_1.dim 1
      else p.dense_weight_1.dim 0) ≠ input_tensor.dim 2) := fun h => h hvalid
  refine ⟨?_, ?_, ?_⟩
  · simp only [PositionwiseFeedForward.forward]
    rw [if_neg hcond]
  · simp only [PositionwiseFeedForward.forward]
    rw [if_neg hcond]
    show [input_tensor.dim 0, input_tensor.dim 1, input_tensor.dim 2] = input_tensor.shape
    rw [hd0, hd1, hd2, hshape]
  · intro idx hidx
    rw [Tensor.numel, hshape, prod3, ← Nat.mul_assoc] at hidx
    rw [ffn_output_data p LN input_tensor output_tensor is_trans_weight b s D F
      hshape hw1 hw2 hLN idx hidx]
    have hw2e : ∀ t2 j, w2ent p is_trans_weight D F t2 j = 0 := by
      intro t2 j
      cases is_trans_weight <;> simp [w2ent, hz2]
    rw [Finset.sum_eq_zero fun t2 _ => by rw [hw2e, mul_zero], hzb2, add_zero, add_zero]

/-- Witness for C3 at a concrete instance. -/
theorem ffn_pipeline_formula_witness :
    (pZero.forward idLN inputW (zeros [1, 1, 2]) false).ok = true ∧
    ∀ idx, idx < 1 * 1 * 2 →
      (pZero.forward idLN inputW (zeros [1, 1, 2]) false).output.data idx =
        inputW.data idx +
          (∑ t2 ∈ Finset.range 3,
            max 0 ((∑ t1 ∈ Finset.range 2,
                (idLN pZero.layer_norm_weight pZero.layer_norm_bias
                  (copyStage inputW 1 1 2)).data (idx / 2 * 2 + t1) *
                w1ent pZero false 2 3 t1 t2) +
              pZero.dense_bias_1.data t2) *
            w2ent pZero false 2 3 t2 (idx % 2)) +
          pZero.dense_bias_2.data (idx % 2) :=
  ffn_pipeline_formula pZero idLN inputW (zeros [1, 1, 2]) false 1 1 2 3
    rfl rfl rfl (fun _ _ _ => rfl)

/-- Witness for C5 at a concrete instance. -/
theorem ffn_zero_weights_identity_witness :
    (pZero.forward idLN inputW (zeros [1, 1, 2]) false).ok = true ∧
    (pZero.forward idLN inputW (zeros [1, 1, 2]) false).output.shape = inputW.shape ∧
    ∀ idx, idx < inputW.numel →
      (pZero.forward idLN inputW (zeros [1, 1, 2]) false).output.data idx =
        inputW.data idx :=
  ffn_zero_weights_identity pZero idLN inputW (zeros [1, 1, 2]) false 1 1 2 3
    rfl rfl rfl (fun _ _ _ => rfl) (fun _ => rfl) (fun _ => rfl) (fun _ => rfl) (fun _ => rfl)

/-- C7: a call that passes validation succeeds, its output tensor has
exactly the shape of the input tensor, and the expansion temporary ends
the call with innermost dimension d_ff, the expanded width resolved from
weight 1 through the transposition flag. -/
theorem ffn_shape_preservation (p : PositionwiseFeedForward)
    (LN : Tensor → Tensor → Tensor → Tensor)
    (input_tensor output_tensor : Tensor) (is_trans_weight : Bool) (b s D : ℕ)
    (hshape : input_tensor.shape = [b, s, D])
    (hvalid : (if is_trans_weight then p.dense_weight_1.dim 1 else p.dense_weight_1.dim 0) = D) :
    (p.forward LN input_tensor output_tensor is_trans_weight).ok = true ∧
    (p.forward LN input_tensor output_tensor is_trans_weight).output.shape =
      input_tensor.shape ∧
    Option.map Tensor.lastDim
        (p.forward LN input_tensor output_tensor is_trans_weight).tempTensor =
      some (if is_trans_weight then p.dense_weight_1.dim 0 else p.dense_weight_1.dim 1) := by
  have hd0 : input_tensor.dim 0 = b := by simp [Tensor.dim, hshape]
  have hd1 : input_tensor.dim 1 = s := by simp [Tensor.dim, hshape]
  have hd2 : input_tensor.dim 2 = D := by simp [Tensor.dim, hshape]
  have hcond : ¬((if is_trans_weight then p.dense_weight_1.dim 1
      else p.dense_weight_1.dim 0) ≠ input_tensor.dim 2) := by
    rw [hvalid, hd2]
    exact fun h => h rfl
  simp only [PositionwiseFeedForward.forward]
  rw [if_neg hcond]
  refine ⟨rfl, ?_, ?_⟩
  · show [input_tensor.dim 0, input_tensor.dim 1, input_tensor.dim 2] = input_tensor.shape
    rw [hd0, hd1, hd2, hshape]
  · rfl

/-- Witness for C7 at a concrete instance. -/
theorem ffn_shape_preservation_witness :
    (pZero.forward idLN inputW (zeros [1, 1, 2]) false).ok = true ∧
    (pZero.forward idLN inputW (zeros [1, 1, 2]) false).output.shape = inputW.shape ∧
    Option.map Tensor.lastDim
        (pZero.forward idLN inputW (zeros [1, 1, 2]) false).tempTensor = some 3 :=
  ffn_shape_preservation pZero idLN inputW (zeros [1, 1, 2]) false 1 1 2 rfl rfl

end layers
end turbo_transformers
